import Mathlib

/-!
# Verification of the mango crawler core

Shallow embedding of the mango manga-downloader (Go) and proofs about it.
Each section embeds one component, translated from the corresponding Go
source file; theorems at the end settle the specification claims.

Modelling conventions:
* Go `int` values are embedded as `Int` (or `Nat` where the source only
  ever holds non-negative values); machine overflow is irrelevant at the
  sizes involved except in `blend`, where the source's `uint32` wrap-around
  arithmetic is modelled explicitly with `% 2^32`.
* Code paths that call `log.Fatal` or would panic (nil-map type assertion,
  index out of range, division by zero) are modelled by `Option`/`none`.
* Network and DOM effects are abstracted into oracle function parameters;
  the functions under verification are otherwise translated line by line.
-/

namespace Mango

/-! ## Fetcher error surface

From `Fetcher.Get` (gradient.go lines 143-174 / part_005 lines 87-104):

    r, err := f.client.Do(req)
    if err == nil && r.StatusCode != 200 {
        return nil, fmt.Errorf("GET %s: %d", u.String(), r.StatusCode)
    }
    return r, err

and from the guessed-image fallback in `MangaReaderCrawler.handleChapter`
(mangareader.go lines 313-322):

    if strings.HasPrefix(err.Error(), "GET") && strings.HasSuffix(err.Error(), "404") {
        m.handlePage(page)
    } else {
        log.Fatal(err)
    }
-/

/-- An HTTP response, reduced to the field `Fetcher.Get` inspects. -/
structure HTTPResponse where
  statusCode : Nat
  deriving Repr, DecidableEq

/-- The error text built by `fmt.Errorf("GET %s: %d", u.String(), r.StatusCode)`. -/
def statusErrorText (u : String) (code : Nat) : String :=
  "GET " ++ u ++ ": " ++ toString code

/-- The status-checking tail of `Fetcher.Get`: a non-200 response is turned
into a string error, any other response is returned unchanged. -/
def fetcherGet (u : String) (r : HTTPResponse) : Except String HTTPResponse :=
  if r.statusCode ≠ 200 then .error (statusErrorText u r.statusCode)
  else .ok r

/-- Embedding of `strings.HasPrefix`, on the character sequences of the strings. -/
def hasPrefixStr (s pre : String) : Bool :=
  pre.data.isPrefixOf s.data

/-- Embedding of `strings.HasSuffix`, on the character sequences of the strings. -/
def hasSuffixStr (s suf : String) : Bool :=
  suf.data.isSuffixOf s.data

/-- The "not found" test actually used by the caller of `Fetcher.Get`
(mangareader.go line 317): inspect the error text for a `"GET"` prefix and
a `"404"` suffix. -/
def isGuessNotFound (e : String) : Bool :=
  hasPrefixStr e "GET" && hasSuffixStr e "404"

/-! ## Metadata (part_005 lines 32-38)

    type Metadata map[string]interface{}

    func (m Metadata) Update(other Metadata) {
        for k, v := range other {
            m[k] = v
        }
    }

A Go map is embedded as an association list with unique keys maintained by
`Metadata.set` (Go map assignment: replace the existing binding, otherwise
append).  Dynamically-typed values become the closed sum `MValue`.
-/

/-- A dynamically typed metadata value (`interface{}` in the source). -/
inductive MValue where
  | int (n : Int)
  | str (s : String)
  deriving Repr, DecidableEq

/-- The type assertion `v.(int)` used throughout the source; a failed
assertion panics, modelled by `none`. -/
def MValue.asInt : Option MValue → Option Int
  | some (.int n) => some n
  | _ => none

/-- The type assertion `v.(string)`. -/
def MValue.asStr : Option MValue → Option String
  | some (.str s) => some s
  | _ => none

/-- The map type `Metadata` as an association list. -/
def Metadata := List (String × MValue)

instance : DecidableEq Metadata := fun a b => List.hasDecEq a b

/-- Go map read `m[k]`. -/
def Metadata.find (m : Metadata) (k : String) : Option MValue :=
  (List.find? (fun p => p.1 = k) m).map Prod.snd

/-- Go map assignment `m[k] = v`: replace an existing binding for `k`, or
append a new one. -/
def Metadata.set (m : Metadata) (k : String) (v : MValue) : Metadata :=
  match m with
  | [] => [(k, v)]
  | (k₀, v₀) :: rest =>
    if k₀ = k then (k, v) :: rest else (k₀, v₀) :: Metadata.set rest k v

/-- Embedding of `func (m Metadata) Update(other Metadata)`: assign every binding of
`other` into `m`, in order. -/
def Metadata.update (m other : Metadata) : Metadata :=
  other.foldl (fun acc p => acc.set p.1 p.2) m

/-! ## Fetcher admission rules (part_005 lines 62-95 / gradient.go 118-151)

    func NewFetcher(maxConnections, perSecond int) Fetcher {
        f := Fetcher{client: client}
        f.Limit("*", maxConnections, perSecond)
        return f
    }

    func (f *Fetcher) Limit(domainGlob string, maxConnections, perSecond int) {
        f.domainRules = append(f.domainRules, domainRule{...})
    }

    func (f Fetcher) Get(u *url.URL) (*http.Response, error) {
        for _, r := range f.domainRules {
            if r.domain.Match(u.Hostname()) { ...; break }
        }
        ...
    }

Glob patterns (gobwas/glob) are embedded for the `*` wildcard, which is the
only metacharacter the program uses.
-/

/-- Glob matching over character lists: `*` matches any (possibly empty)
substring, every other character matches itself.  A star consumes an
arbitrary leading slice, so the remaining pattern may resume at any tail
of the subject. -/
def globMatchL : List Char → List Char → Bool
  | [], s => s.isEmpty
  | '*' :: ps, s => s.tails.any (fun t => globMatchL ps t)
  | p :: ps, s =>
    match s with
    | [] => false
    | c :: s => p = c && globMatchL ps s

/-- Embedding of `glob.MustCompile(pattern).Match(s)`. -/
def globMatch (pattern s : String) : Bool :=
  globMatchL pattern.data s.data

/-- One entry of `Fetcher.domainRules`; the semaphore and rate limiter are
kept as their configuration values. -/
structure DomainRule where
  domain : String
  maxConnections : Int
  perSecond : Int
  deriving Repr, DecidableEq

/-- The `Fetcher`, reduced to its rule list. -/
structure Fetcher where
  domainRules : List DomainRule
  deriving Repr, DecidableEq

/-- Embedding of `func (f *Fetcher) Limit(...)`: append a rule. -/
def Fetcher.limit (f : Fetcher) (domainGlob : String) (maxConnections perSecond : Int) :
    Fetcher :=
  { domainRules := f.domainRules ++ [⟨domainGlob, maxConnections, perSecond⟩] }

/-- Embedding of `func NewFetcher(...)`: start from an empty rule list and install the
catch-all rule. -/
def NewFetcher (maxConnections perSecond : Int) : Fetcher :=
  Fetcher.limit { domainRules := [] } "*" maxConnections perSecond

/-- The rule that governs admission in `Fetcher.Get`: the first rule in
list order whose pattern matches the host (the loop `break`s at the first
match). -/
def Fetcher.governingRule (f : Fetcher) (host : String) : Option DomainRule :=
  f.domainRules.find? (fun r => globMatch r.domain host)

/-- A fetcher built by `NewFetcher` followed by any sequence of `Limit`
calls, applied in order. -/
def fetcherOf (maxConnections perSecond : Int) (limits : List (String × Int × Int)) :
    Fetcher :=
  limits.foldl (fun f l => f.limit l.1 l.2.1 l.2.2) (NewFetcher maxConnections perSecond)

/-! ### Supporting lemmas: fetcher rules -/

theorem globMatchL_star (s : List Char) : globMatchL ['*'] s = true := by
  have hmem : ([] : List Char) ∈ s.tails := by
    induction s with
    | nil => simp
    | cons c s ih => simp [List.tails, ih]
  rw [show globMatchL ['*'] s = s.tails.any (fun t => globMatchL [] t) from rfl,
    List.any_eq_true]
  exact ⟨[], hmem, rfl⟩

theorem globMatch_star (s : String) : globMatch "*" s = true := by
  have : ("*" : String).data = ['*'] := rfl
  simp [globMatch, this, globMatchL_star]

theorem fetcherOf_domainRules (mc ps : Int) (limits : List (String × Int × Int)) :
    (fetcherOf mc ps limits).domainRules =
      ⟨"*", mc, ps⟩ :: limits.map (fun l => ⟨l.1, l.2.1, l.2.2⟩) := by
  suffices h : ∀ (f : Fetcher),
      (limits.foldl (fun f l => f.limit l.1 l.2.1 l.2.2) f).domainRules =
        f.domainRules ++ limits.map (fun l => ⟨l.1, l.2.1, l.2.2⟩) by
    simpa [fetcherOf, NewFetcher, Fetcher.limit] using h (NewFetcher mc ps)
  induction limits with
  | nil => intro f; simp
  | cons l ls ih =>
    intro f
    rw [List.foldl_cons, ih]
    simp [Fetcher.limit]

/-! ### Supporting lemmas: metadata maps -/

theorem Metadata.find_nil (k : String) : Metadata.find [] k = none := rfl

theorem Metadata.find_cons (p : String × MValue) (rest : List (String × MValue)) (k : String) :
    Metadata.find (p :: rest) k =
      if p.1 = k then some p.2 else Metadata.find rest k := by
  by_cases h : p.1 = k <;> simp [Metadata.find, List.find?, h]

theorem Metadata.find_set_self (m : Metadata) (k : String) (v : MValue) :
    (m.set k v).find k = some v := by
  induction m with
  | nil => simp [Metadata.set, Metadata.find_cons]
  | cons p rest ih =>
    rcases p with ⟨k₀, v₀⟩
    by_cases h : k₀ = k
    · simp [Metadata.set, h, Metadata.find_cons]
    · simp [Metadata.set, h, Metadata.find_cons, ih]

theorem Metadata.find_set_ne (m : Metadata) (k k' : String) (v : MValue) (h : k' ≠ k) :
    (m.set k v).find k' = m.find k' := by
  induction m with
  | nil => simp [Metadata.set, Metadata.find_cons, Metadata.find_nil, Ne.symm h]
  | cons p rest ih =>
    rcases p with ⟨k₀, v₀⟩
    by_cases h₀ : k₀ = k
    · subst h₀
      simp [Metadata.set, Metadata.find_cons, Ne.symm h]
    · by_cases h₁ : k₀ = k'
      · simp [Metadata.set, h₀, Metadata.find_cons, h₁, h]
      · simp [Metadata.set, h₀, Metadata.find_cons, h₁, ih]

theorem Metadata.find_eq_none_of_not_mem (m : Metadata) (k : String)
    (h : k ∉ m.map Prod.fst) : m.find k = none := by
  induction m with
  | nil => rfl
  | cons p rest ih =>
    rw [List.map_cons, List.mem_cons, not_or] at h
    rw [Metadata.find_cons, if_neg (fun hh => h.1 hh.symm), ih h.2]

/-- The two halves of right-biased shallow merge, proved together by one
induction over `B`. -/
theorem Metadata.update_find (A B : Metadata) (hB : (B.map Prod.fst).Nodup) (k : String) :
    (∀ v, B.find k = some v → (A.update B).find k = some v) ∧
      (B.find k = none → (A.update B).find k = A.find k) := by
  induction B generalizing A with
  | nil =>
    constructor
    · intro v hv; simp [Metadata.find, List.find?] at hv
    · intro _; simp [Metadata.update]
  | cons p rest ih =>
    have hnd : (rest.map Prod.fst).Nodup := (List.nodup_cons.mp hB).2
    have hmem : p.1 ∉ rest.map Prod.fst := (List.nodup_cons.mp hB).1
    have hupd : Metadata.update A (p :: rest) = Metadata.update (A.set p.1 p.2) rest := rfl
    have hrest_none : Metadata.find rest p.1 = none :=
      Metadata.find_eq_none_of_not_mem rest p.1 hmem
    constructor
    · intro v hv
      rw [Metadata.find_cons] at hv
      by_cases hk : p.1 = k
      · rw [if_pos hk] at hv
        cases hv
        rw [hupd, (ih (A.set p.1 p.2) hnd).2 (hk ▸ hrest_none), hk,
          Metadata.find_set_self]
      · rw [if_neg hk] at hv
        rw [hupd]
        exact (ih (A.set p.1 p.2) hnd).1 v hv
    · intro hnone
      rw [Metadata.find_cons] at hnone
      by_cases hk : p.1 = k
      · rw [if_pos hk] at hnone; cases hnone
      · rw [if_neg hk] at hnone
        rw [hupd, (ih (A.set p.1 p.2) hnd).2 hnone,
          Metadata.find_set_ne _ _ _ _ (fun h => hk h.symm)]

/-! ### Claim theorems: C1, C3, C8 -/

/-- C1, counterexample. The claim says `Fetcher.Get` surfaces a non-success
status as a typed error carrying the numeric code, so a caller can
distinguish 404 from any other status without inspecting error text.  In
the code the error is the formatted string `"GET <url>: <code>"` and the
caller distinguishes "not found" by text prefix/suffix inspection, which
also accepts status 1404: the caller's own test cannot separate 404 from
1404, refuting the claim at a concrete input. -/
theorem c1_counterexample :
    fetcherGet "http://example.com/x.jpg" ⟨1404⟩ =
        .error "GET http://example.com/x.jpg: 1404" ∧
      isGuessNotFound "GET http://example.com/x.jpg: 1404" = true ∧
      (1404 : Nat) ≠ 404 := by
  refine ⟨rfl, by decide, by decide⟩

/-- C1, amended. A non-success status is surfaced as the formatted string
error `"GET <url>: <code>"` (not a structured value), and the caller's
text-based test `isGuessNotFound` classifies 404 as not-found, 500 as
other, but misclassifies 1404 as not-found. -/
theorem c1_amended (u : String) (r : HTTPResponse) (h : r.statusCode ≠ 200) :
    fetcherGet u r = .error (statusErrorText u r.statusCode) ∧
      isGuessNotFound (statusErrorText "http://x/i.jpg" 404) = true ∧
      isGuessNotFound (statusErrorText "http://x/i.jpg" 500) = false ∧
      isGuessNotFound (statusErrorText "http://x/i.jpg" 1404) = true := by
  refine ⟨by simp [fetcherGet, h], by decide, by decide, by decide⟩

/-- C1 witness: the amended theorem applied at a concrete response. -/
theorem c1_amended_witness :
    fetcherGet "http://x/i.jpg" ⟨404⟩ = .error (statusErrorText "http://x/i.jpg" 404) :=
  (c1_amended "http://x/i.jpg" ⟨404⟩ (by decide)).1

/-- C3, counterexample. The claim says the rule list always keeps a
catch-all pattern as its *final* fallback rule.  After
`NewFetcher(50, 10)` followed by `Limit("example.com", 2, 1)` the final
rule's pattern is `"example.com"`, which is not a catch-all (it does not
match the host `"other.org"`); the catch-all sits at the *head* of the
list instead. -/
theorem c3_counterexample :
    ((fetcherOf 50 10 [("example.com", 2, 1)]).domainRules.getLast?.map
        DomainRule.domain) = some "example.com" ∧
      globMatch "example.com" "other.org" = false ∧
      ((fetcherOf 50 10 [("example.com", 2, 1)]).domainRules.head?.map
        DomainRule.domain) = some "*" := by
  refine ⟨by decide, by decide, by decide⟩

/-- C3, amended. In every fetcher built by `NewFetcher` and extended by any
sequence of `Limit` calls, the catch-all rule is the *first* rule of the
list, and since `Get` admits through the first rule in list order whose
pattern matches the host, the catch-all rule governs admission for every
request (later `Limit` rules are never consulted). -/
theorem c3_amended (mc ps : Int) (limits : List (String × Int × Int)) (host : String) :
    (fetcherOf mc ps limits).domainRules.head? = some ⟨"*", mc, ps⟩ ∧
      (fetcherOf mc ps limits).governingRule host = some ⟨"*", mc, ps⟩ := by
  rw [Fetcher.governingRule, fetcherOf_domainRules]
  exact ⟨rfl, by simp [List.find?, globMatch_star]⟩

/-- C8: `Metadata.Update` is right-biased and shallow.  For maps `A` and
`B` (with `B`'s keys distinct, as in a Go map), after merging `B` into `A`
every key bound in `B` maps to `B`'s value, and every key not bound in `B`
keeps `A`'s binding (so non-conflicting keys from both survive). -/
theorem c8_update_right_biased (A B : Metadata) (hB : (B.map Prod.fst).Nodup) :
    (∀ k v, B.find k = some v → (A.update B).find k = some v) ∧
      (∀ k, B.find k = none → (A.update B).find k = A.find k) :=
  ⟨fun k v h => (Metadata.update_find A B hB k).1 v h,
   fun k h => (Metadata.update_find A B hB k).2 h⟩

/-- C8 witness: merging `[("a", 1), ("b", 2)]` into `[("a", 0), ("c", 3)]`
keeps `B`'s value for `"a"`, adds `"b"`, and keeps `A`'s value for `"c"`. -/
theorem c8_update_right_biased_witness :
    (Metadata.update [("a", .int 0), ("c", .int 3)] [("a", .int 1), ("b", .int 2)]).find "a" =
        some (.int 1) ∧
      (Metadata.update [("a", .int 0), ("c", .int 3)] [("a", .int 1), ("b", .int 2)]).find "c" =
        some (.int 3) := by
  have h := c8_update_right_biased [("a", .int 0), ("c", .int 3)]
    [("a", .int 1), ("b", .int 2)] (by decide)
  exact ⟨h.1 "a" (.int 1) (by decide), by rw [h.2 "c" (by decide)]; decide⟩

/-! ## Progress actor (progress.go lines 49-94)

    func (self ProgressBar) run() {
        ...
        var nextPlace int = 1
    loop:
        for {
            select {
            case <-self.stopCh:
                break loop
            case self.startCh <- nextPlace:
                nextPlace++
            case task := <-self.tickCh:
                ...
            }
        }
        ...
    }

The owner loop is embedded as a transition system over its single piece of
state, `nextPlace`: each serviced request is an event, and we collect the
lane (place) numbers handed out on `startCh`. -/

/-- One serviced request of the progress-bar owner loop. -/
inductive PBEvent where
  | start
  | tick
  | stop
  deriving Repr, DecidableEq

/-- The lanes handed out by the owner loop, starting from `nextPlace`, over
a sequence of serviced requests; `stop` breaks the loop. -/
def pbAllocations : Nat → List PBEvent → List Nat
  | _, [] => []
  | _, .stop :: _ => []
  | nextPlace, .start :: es => nextPlace :: pbAllocations (nextPlace + 1) es
  | nextPlace, .tick :: es => pbAllocations nextPlace es

/-- The number of `start` requests serviced before the loop breaks. -/
def pbStartCount : List PBEvent → Nat
  | [] => 0
  | .stop :: _ => 0
  | .start :: es => pbStartCount es + 1
  | .tick :: es => pbStartCount es

theorem pbAllocations_eq_range' (p : Nat) (es : List PBEvent) :
    pbAllocations p es = List.range' p (pbStartCount es) := by
  induction es generalizing p with
  | nil => rfl
  | cons e es ih =>
    cases e with
    | start => rw [pbAllocations, pbStartCount, ih, List.range'_succ]
    | tick => rw [pbAllocations, pbStartCount, ih]
    | stop => rfl

/-- C9: lane allocation hands out the strictly increasing sequence
`1, 2, 3, …`: over any sequence of serviced requests the allocated lanes
are exactly `[1, …, k]` for `k` allocations, pairwise strictly increasing
(so a lane is never handed out twice), and lane `0` is never handed out. -/
theorem c9_lane_allocation (es : List PBEvent) :
    pbAllocations 1 es = List.range' 1 (pbStartCount es) ∧
      (pbAllocations 1 es).Pairwise (· < ·) ∧
      0 ∉ pbAllocations 1 es ∧
      ∀ i : Nat, i < pbStartCount es → (pbAllocations 1 es).get? i = some (i + 1) := by
  refine ⟨pbAllocations_eq_range' 1 es, ?_, ?_, ?_⟩
  · rw [pbAllocations_eq_range' 1 es]
    exact List.pairwise_lt_range' 1 (pbStartCount es) 1
  · rw [pbAllocations_eq_range' 1 es]
    intro hmem
    have := List.mem_range'_1.mp hmem
    omega
  · intro i hi
    rw [pbAllocations_eq_range' 1 es]
    rw [List.get?_eq_getElem?, List.getElem?_range']
    · exact congrArg some (by omega)
    · exact hi

/-! ## Image-URL predictor (part_004 lines 133-209)

    IMAGE_NAME_RE = regexp.MustCompile(`(?P<prefix>.*)-(?P<number>\d+).(?P<suffix>.*)`)

`parseImageNumber` decomposes the basename of an image URL with this
pattern and rebuilds the format string `"./%s-%%d.%s"` from the prefix and
suffix (the `%` → `%%` escaping round-trips through `Sprintf`, so prefix
and suffix reappear verbatim; note the rebuilt template uses a literal `.`
for the single character the unescaped `.` matched).  `guessImages`
resolves one extra page (the last of the list) through `handlePage`,
orders the two calibration points by page index, computes the step by
integer division and predicts every remaining page's image location.

A URL is embedded as a directory part plus a basename
(`path.Base(u.EscapedPath())`); resolving the relative reference
`./name` against it keeps the directory and replaces the basename. -/

/-- A URL, split as `path.Base` does: everything before the last slash,
and the basename. -/
structure Url where
  dir : String
  base : String
  deriving Repr, DecidableEq

/-- A `Resource`: a location plus dynamically-typed metadata
(part_005 lines 40-43). -/
structure Resource where
  url : Url
  info : Metadata

instance : DecidableEq Resource := fun a b => by
  rcases a with ⟨ua, ia⟩; rcases b with ⟨ub, ib⟩
  have : Decidable (ua = ub ∧ ia = ib) := instDecidableAnd
  exact decidable_of_iff (ua = ub ∧ ia = ib) (by simp)

/-- Resolve the relative reference produced by the predictor
(`u.Parse("./…")`): keep the directory, replace the basename. -/
def resolveRel (u : Url) (p : String) : Url :=
  match p.data with
  | '.' :: '/' :: rest => ⟨u.dir, ⟨rest⟩⟩
  | _ => ⟨u.dir, p⟩

/-- Embedding of `strconv.Atoi` on a run of decimal digits. -/
def charsToNat (l : List Char) : Nat :=
  l.foldl (fun n c => 10 * n + (c.toNat - 48)) 0

/-- One candidate match of `(?P<prefix>.*)-(?P<number>\d+).(?P<suffix>.*)`
whose prefix ends just before the `-` at the split point: the digit run
after the `-` must be non-empty and must leave at least one character for
the unescaped `.`; if the digits extend to the end of the string the
greedy `\d+` backtracks by one so the `.` can match the final digit. -/
def pimCandidate (acc : List Char) (c : Char) (r : List Char) :
    Option (List Char × List Char × List Char) :=
  if c = '-' then
    let ds := r.takeWhile Char.isDigit
    let rs := r.dropWhile Char.isDigit
    match rs with
    | _ :: suf => if ds.isEmpty then none else some (acc, ds, suf)
    | [] => if 2 ≤ ds.length then some (acc, ds.dropLast, []) else none
  else none

/-- Greedy-prefix search: the regex's leading `.*` prefers the longest
prefix, so the rightmost viable `-` split wins. -/
def pimAux (acc : List Char) : List Char → Option (List Char × List Char × List Char)
  | [] => none
  | c :: r =>
    match pimAux (acc ++ [c]) r with
    | some res => some res
    | none => pimCandidate acc c r

/-- Embedding of `parseImageNumber` (part_004 lines 137-153): the parsed numeric id,
prefix and suffix of a basename, or `none` where the source calls
`log.Fatal`. -/
def parseImageNumber (basename : String) : Option (Nat × String × String) :=
  (pimAux [] basename.data).map (fun x => (charsToNat x.2.1, ⟨x.1⟩, ⟨x.2.2⟩))

/-- The loop body of `guessImages`: one predicted location per remaining
page, from `newPath := Sprintf(relPathFmt, start+delta*page)` resolved
against the last calibration image's URL; `none` models the panic of the
`.(int)` assertion on a missing page index. -/
def guessLoop (pre suf : String) (start delta : Int) (baseUrl : Url) :
    List Resource → Option (List Url)
  | [] => some []
  | p :: ps =>
    match MValue.asInt (p.info.find "page") with
    | none => none
    | some page =>
      (guessLoop pre suf start delta baseUrl ps).map
        (fun rest =>
          resolveRel baseUrl ("./" ++ pre ++ "-" ++ toString (start + delta * page) ++ "." ++ suf)
            :: rest)

/-- Embedding of `guessImages` (part_004 lines 169-209).  `handlePage` abstracts the
one real fetch of the last listed page; `none` models `log.Fatal` (no
images) and the runtime panics (missing page index, division by zero). -/
def guessImages (handlePage : Resource → Resource) (pages images : List Resource) :
    Option (List Resource × List Url) :=
  if images.isEmpty then none
  else if pages.isEmpty then some ([], [])
  else do
    let thisImageRes₀ := images.headD ⟨⟨"", ""⟩, []⟩
    let lastImageRes₀ := handlePage (pages.getLastD ⟨⟨"", ""⟩, []⟩)
    let pagesRem := pages.dropLast
    let thisPage₀ ← MValue.asInt (thisImageRes₀.info.find "page")
    let lastPage₀ ← MValue.asInt (lastImageRes₀.info.find "page")
    let thisImageRes := if thisPage₀ > lastPage₀ then lastImageRes₀ else thisImageRes₀
    let lastImageRes := if thisPage₀ > lastPage₀ then thisImageRes₀ else lastImageRes₀
    let thisPage := if thisPage₀ > lastPage₀ then lastPage₀ else thisPage₀
    let lastPage := if thisPage₀ > lastPage₀ then thisPage₀ else lastPage₀
    let pim₁ ← parseImageNumber thisImageRes.url.base
    let pim₂ ← parseImageNumber lastImageRes.url.base
    let thisImage : Int := pim₁.1
    let lastImage : Int := pim₂.1
    if lastPage - thisPage = 0 then none
    else
      let delta := Int.tdiv (lastImage - thisImage) (lastPage - thisPage)
      let start := thisImage - thisPage * delta
      let guesses ← guessLoop pim₁.2.1 pim₁.2.2 start delta lastImageRes.url pagesRem
      some (pagesRem, guesses)

/-! ### Supporting lemmas: predictor -/

theorem resolveRel_dotSlash (u : Url) (s : String) :
    resolveRel u ("./" ++ s) = ⟨u.dir, s⟩ := by
  have hdata : ("./" ++ s).data = '.' :: '/' :: s.data := by
    rw [String.data_append]; rfl
  rw [resolveRel, hdata]
  rcases s with ⟨d⟩
  rfl

theorem guessLoop_eq_map (pre suf : String) (start delta : Int) (bu : Url)
    (l : List Resource) (pageIdx : Resource → Int)
    (h : ∀ p ∈ l, MValue.asInt (p.info.find "page") = some (pageIdx p)) :
    guessLoop pre suf start delta bu l =
      some (l.map (fun p =>
        ⟨bu.dir, pre ++ "-" ++ toString (start + delta * pageIdx p) ++ "." ++ suf⟩)) := by
  induction l with
  | nil => rfl
  | cons p ps ih =>
    have hp := h p (List.mem_cons_self p ps)
    have hps := ih (fun q hq => h q (List.mem_cons_of_mem p hq))
    rw [guessLoop, hp, hps]
    have heq : ("./" ++ (pre ++ "-" ++ toString (start + delta * pageIdx p) ++ "." ++ suf)) =
        ("./" ++ pre ++ "-" ++ toString (start + delta * pageIdx p) ++ "." ++ suf) := by
      simp [String.append_assoc]
    simp only [List.map_cons, Option.map_some, ← heq, resolveRel_dotSlash]
    rfl

/-! ### Claim theorems: C2, C7 -/

/-- C2: the predictor's arithmetic.  Given the two calibration points
`(pageA, idA)` (the already-resolved image) and `(pageB, idB)` (the
resolved last listed page) with `pageA ≠ pageB`, `guessImages` orders them
by page index (swapping if necessary), computes
`delta = (idHi - idLo) tdiv (pageHi - pageLo)` (Go integer division
truncates toward zero) and `start = idLo - pageLo * delta`, and predicts
for every remaining page `p` the location built from the template with id
`start + delta * page(p)`, prefix and suffix unchanged. -/
theorem c2_predictor_arithmetic
    (handlePage : Resource → Resource) (pages images : List Resource)
    (imgA imgB plast : Resource) (pageA pageB : Int)
    (idA idB : Nat) (preA sufA preB sufB : String) (pageIdx : Resource → Int)
    (h1 : images.head? = some imgA)
    (h2 : pages.getLast? = some plast)
    (h3 : handlePage plast = imgB)
    (h4 : MValue.asInt (imgA.info.find "page") = some pageA)
    (h5 : MValue.asInt (imgB.info.find "page") = some pageB)
    (h6 : parseImageNumber imgA.url.base = some (idA, preA, sufA))
    (h7 : parseImageNumber imgB.url.base = some (idB, preB, sufB))
    (h8 : pageA ≠ pageB)
    (h9 : ∀ p ∈ pages.dropLast, MValue.asInt (p.info.find "page") = some (pageIdx p)) :
    guessImages handlePage pages images =
      some (pages.dropLast, pages.dropLast.map (fun p =>
        ⟨(if pageA > pageB then imgA.url else imgB.url).dir,
          (if pageA > pageB then preB else preA) ++ "-" ++
            toString
              ((if pageA > pageB then (idB : Int) else (idA : Int)) -
                  (if pageA > pageB then pageB else pageA) *
                    Int.tdiv ((if pageA > pageB then (idA : Int) else (idB : Int)) -
                        (if pageA > pageB then (idB : Int) else (idA : Int)))
                      ((if pageA > pageB then pageA else pageB) -
                        (if pageA > pageB then pageB else pageA)) +
                Int.tdiv ((if pageA > pageB then (idA : Int) else (idB : Int)) -
                      (if pageA > pageB then (idB : Int) else (idA : Int)))
                    ((if pageA > pageB then pageA else pageB) -
                      (if pageA > pageB then pageB else pageA)) *
                  pageIdx p) ++ "." ++
            (if pageA > pageB then sufB else sufA)⟩)) := by
  rcases images with _ | ⟨a, tl⟩
  · simp at h1
  · have ha : a = imgA := by simpa using h1
    subst ha
    rcases pages with _ | ⟨p0, ptl⟩
    · simp at h2
    · have hglast : (p0 :: ptl).getLastD (⟨⟨"", ""⟩, []⟩ : Resource) = plast := by
        rw [List.getLastD_eq_getLast?, h2]; rfl
      rw [guessImages]
      simp only [List.isEmpty_cons, Bool.false_eq_true, if_false, List.headD_cons, hglast, h3]
      rw [h4, h5]
      simp only [bind, Option.bind]
      by_cases hsw : pageA > pageB
      · simp only [if_pos hsw]
        rw [h7]
        simp only [bind, Option.bind]
        rw [h6]
        simp only [bind, Option.bind]
        have hne : pageA - pageB ≠ 0 := fun hc => h8 (by omega)
        rw [if_neg hne]
        rw [guessLoop_eq_map preB sufB _ _ a.url _ pageIdx h9]
      · simp only [if_neg hsw]
        rw [h6]
        simp only [bind, Option.bind]
        rw [h7]
        simp only [bind, Option.bind]
        have hne : pageB - pageA ≠ 0 := fun hc => h8 (by omega)
        rw [if_neg hne]
        rw [guessLoop_eq_map preA sufA _ _ imgB.url _ pageIdx h9]

/-- C2 witness: the spec's own example.  Calibration `(page 1, id 100)`
and `(page 10, id 1000)` yields `delta = 100`, `start = 0`, and the
predicted location for page 5 substitutes id `500` into the template with
prefix `pic` and suffix `jpg` unchanged. -/
theorem c2_predictor_arithmetic_witness :
    guessImages
        (fun _ => ⟨⟨"http://c.mr.net/ch1", "pic-1000.jpg"⟩, [("page", .int 10)]⟩)
        [⟨⟨"http://mr.net/m/1", "5"⟩, [("page", .int 5)]⟩,
          ⟨⟨"http://mr.net/m/1", "10"⟩, [("page", .int 10)]⟩]
        [⟨⟨"http://c.mr.net/ch1", "pic-100.jpg"⟩, [("page", .int 1)]⟩] =
      some ([⟨⟨"http://mr.net/m/1", "5"⟩, [("page", .int 5)]⟩],
        [⟨"http://c.mr.net/ch1", "pic-500.jpg"⟩]) ∧
      Int.tdiv ((1000 : Int) - 100) (10 - 1) = 100 := by
  constructor
  · rw [c2_predictor_arithmetic
      (fun _ => ⟨⟨"http://c.mr.net/ch1", "pic-1000.jpg"⟩, [("page", .int 10)]⟩)
      [⟨⟨"http://mr.net/m/1", "5"⟩, [("page", .int 5)]⟩,
        ⟨⟨"http://mr.net/m/1", "10"⟩, [("page", .int 10)]⟩]
      [⟨⟨"http://c.mr.net/ch1", "pic-100.jpg"⟩, [("page", .int 1)]⟩]
      ⟨⟨"http://c.mr.net/ch1", "pic-100.jpg"⟩, [("page", .int 1)]⟩
      ⟨⟨"http://c.mr.net/ch1", "pic-1000.jpg"⟩, [("page", .int 10)]⟩
      ⟨⟨"http://mr.net/m/1", "10"⟩, [("page", .int 10)]⟩
      1 10 100 1000 "pic" "jpg" "pic" "jpg" (fun _ => 5)
      rfl rfl rfl (by decide) (by decide) (by decide) (by decide) (by decide)
      (by decide)]
    decide
  · decide

/-- C7: a chapter with exactly one page (an empty list of other-page
resources) bypasses prediction entirely: `guessImages` returns no guesses
and never consults the page-fetch oracle, so the step computation (whose
divisor would be zero) is never reached — the result is the same for every
oracle. -/
theorem c7_single_page_bypass (images : List Resource)
    (h : images.isEmpty = false) :
    (∀ handlePage : Resource → Resource,
        guessImages handlePage [] images = some ([], [])) ∧
      ∀ f g : Resource → Resource,
        guessImages f [] images = guessImages g [] images := by
  refine ⟨fun handlePage => ?_, fun f g => ?_⟩
  · rw [guessImages, h]
    rfl
  · rw [guessImages, h, guessImages, h]
    rfl

/-- C7 witness: a concrete single-page chapter with two distinct oracles. -/
theorem c7_single_page_bypass_witness :
    guessImages (fun r => r) []
        [⟨⟨"http://c.mr.net/ch1", "pic-100.jpg"⟩, [("page", .int 1)]⟩] =
      some ([], []) :=
  (c7_single_page_bypass
    [⟨⟨"http://c.mr.net/ch1", "pic-100.jpg"⟩, [("page", .int 1)]⟩] rfl).1 (fun r => r)

/-! ## Crawl orchestrator (commoncrawler.go lines 44-113, mangareader.go lines 242-284)

The two chapter handlers disagree on when the skip rule runs:

`CommonSimpleCrawler.handleChapter` (commoncrawler.go line 45) checks
first:

    func (m *CommonSimpleCrawler) handleChapter(chapter Resource) {
        if m.rule.Block(chapter) {
            return
        }
        chapterDoc, err := m.client.GetHTML(chapter.url)
        ...

`MangaReaderCrawler.handleChapter` (mangareader.go line 243) fetches
first and only evaluates the rule after `GetPages`:

    func (m *MangaReaderCrawler) handleChapter(chapter resource) {
        chapterDoc, err := m.client.GetHTML(chapter.url)
        ...
        otherPages, thisPage := m.scraper.GetPages(chapterDoc)
        ...
        if m.rule.Block(thisPage[0].info) {
            return
        }
        ...

Document parsing and HTTP are abstracted into oracles; the handlers are
embedded as trace producers: the list of externally visible events in
program order (concurrent fan-out is serialised in spawn order, which is
irrelevant to the claims, which only concern the empty trace). -/

/-- A fetched document, kept abstract. -/
structure Doc where
  id : Nat
  deriving Repr, DecidableEq

/-- Externally visible events of a crawl. -/
inductive Event where
  | fetch (u : Url)
  | save (info : Metadata)
  | pageEnd (info : Metadata)
  | chapterEnd (info : Metadata)
  deriving DecidableEq

/-- Terminal state of a chapter node. -/
inductive COutcome where
  | skipped
  | failed
  | done
  deriving Repr, DecidableEq

/-- The extractor collaborator and fetch layer, as oracles. -/
structure Oracles where
  getHTML : Url → Doc
  getPages : Doc → List Resource × List Resource
  getImage : Doc → Resource

/-- Embedding of `CommonSimpleCrawler.handleImage`: one image fetch and one save. -/
def commonHandleImage (img : Resource) : List Event :=
  [.fetch img.url, .save img.info]

/-- Embedding of `CommonSimpleCrawler.handlePage`: fetch the page document, resolve its
image, merge the page metadata, persist, notify. -/
def commonHandlePage (oc : Oracles) (page : Resource) : List Event × Resource :=
  let pageDoc := oc.getHTML page.url
  let img₀ := oc.getImage pageDoc
  let img : Resource := ⟨img₀.url, img₀.info.update page.info⟩
  ([.fetch page.url] ++ commonHandleImage img ++ [.pageEnd img.info], img)

/-- Embedding of `CommonSimpleCrawler.handleChapter` (commoncrawler.go lines 44-79) as
a trace producer: the rule is evaluated on the chapter resource *before*
any fetch; a blocked chapter returns immediately. -/
def commonHandleChapter (oc : Oracles) (rule : Resource → Bool) (chapter : Resource) :
    List Event × COutcome :=
  if rule chapter then ([], .skipped)
  else
    let chapterDoc := oc.getHTML chapter.url
    let pr := oc.getPages chapterDoc
    match pr.2 with
    | [] => ([.fetch chapter.url], .failed)
    | t0 :: _ =>
      let first : Resource := ⟨t0.url, t0.info.update chapter.info⟩
      let others := pr.1.map (fun p => (⟨p.url, p.info.update chapter.info⟩ : Resource))
      ([.fetch chapter.url] ++ commonHandleImage first ++
          (others.map (fun p => (commonHandlePage oc p).1)).flatten ++
          [.pageEnd first.info, .chapterEnd first.info],
        .done)

/-- The fetch-then-check head of `MangaReaderCrawler.handleChapter`
(mangareader.go lines 242-284), up to and including the skip decision: the
chapter document is fetched first; when `chapter.info` is nil the chapter
metadata is recovered through further fetches (lines 248-274, abstracted
into `resolveInfo`, which also reports the extra fetch events it makes);
then `GetPages` runs, the chapter metadata is merged, and only then is the
rule evaluated.  Returns the events so far and whether the rule blocked. -/
def mrHandleChapterUpToSkip (getHTML : Url → Doc)
    (getPages : Doc → List Resource × List Resource)
    (resolveInfo : Doc → Url → Metadata × List Event)
    (rule : Metadata → Bool) (chapterUrl : Url) (chapterInfo : Option Metadata) :
    List Event × Bool :=
  let chapterDoc := getHTML chapterUrl
  let resolved :=
    match chapterInfo with
    | some i => ([], i)
    | none => ((resolveInfo chapterDoc chapterUrl).2, (resolveInfo chapterDoc chapterUrl).1)
  let pr := getPages chapterDoc
  match pr.2 with
  | [] => (Event.fetch chapterUrl :: resolved.1, false)
  | t0 :: _ =>
    (Event.fetch chapterUrl :: resolved.1, rule (t0.info.update resolved.2))

/-! ### Claim theorems: C6 -/

/-- C6, counterexample.  The claim says a chapter whose skip rule blocks
on already-known metadata performs no network call at all.  In the
`MangaReaderCrawler` variant the chapter document is fetched before the
rule is consulted: with an always-blocking rule and fully known chapter
metadata, the handler still performs the chapter-document fetch. -/
theorem c6_counterexample :
    mrHandleChapterUpToSkip (fun _ => ⟨0⟩)
        (fun _ => ([], [⟨⟨"http://i.mr.net/ch2", "p-1.jpg"⟩, [("page", .int 1)]⟩]))
        (fun _ _ => ([], []))
        (fun _ => true)
        ⟨"http://mr.net/one-piece", "2"⟩
        (some [("manga", .str "One Piece")]) =
      ([Event.fetch ⟨"http://mr.net/one-piece", "2"⟩], true) := by
  rfl

/-- C6, amended.  In `CommonSimpleCrawler.handleChapter` the skip rule is
evaluated before any network call: a blocked chapter transitions to
`skipped` with an empty event trace (no chapter-document fetch, no page
fetches, no image fetches).  The `MangaReaderCrawler` variant, by
contrast, fetches the chapter document before evaluating the rule (see
the counterexample). -/
theorem c6_amended (oc : Oracles) (rule : Resource → Bool) (chapter : Resource)
    (h : rule chapter = true) :
    commonHandleChapter oc rule chapter = ([], .skipped) := by
  rw [commonHandleChapter, if_pos h]

/-- C6 witness: a concrete blocked chapter under `CommonSimpleCrawler`. -/
theorem c6_amended_witness :
    commonHandleChapter
        ⟨fun _ => ⟨0⟩, fun _ => ([], []), fun _ => ⟨⟨"", ""⟩, []⟩⟩
        (fun _ => true)
        ⟨⟨"http://mr.net/one-piece", "2"⟩, [("manga", .str "One Piece")]⟩ =
      ([], .skipped) :=
  c6_amended _ _ _ rfl

/-! ## Linear gradient (gradient.go lines 8-44)

    func blend(x, y color.Color, t float64) color.Color {
        xr, xg, xb, _ := x.RGBA()
        yr, yg, yb, _ := y.RGBA()
        w := uint32(0xffff * t)
        r := xr + (w * (yr - xr) >> 16)
        ...
        return color.RGBA{uint8(r >> 8), uint8(g >> 8), uint8(b >> 8), 0xff}
    }

    func (lg LinearGradient) At(t float64) color.Color {
        N := float64(len(lg) - 1)
        i := sort.Search(len(lg), func(i int) bool { return float64(i)/N >= t })
        switch i {
        case 0: return lg[0]
        case len(lg): return lg[i-1]
        }
        colorA := lg[i-1]; colorB := lg[i]
        t = N*t - float64(i) + 1
        return blend(colorA, colorB, t)
    }

Colors are 8-bit RGBA values; `color.RGBA.RGBA()` widens each channel to
16 bits as `c * 0x101 = 257 c`.  The `uint32` subtraction `yr - xr` wraps
modulo `2^32`, which is modelled explicitly.  The float64 fraction is
embedded as a rational: every arithmetic step `At` performs
(`float64(i)/N >= t`, `0xffff*t`, `N*t - i + 1`) is exact in float64 for
the list lengths and comparisons involved, except that the model's `x/0 = 0`
convention replaces NaN for a one-element gradient — where the source also
returns `lg[0]` on every path, as does the model.  `sort.Search` is
specified to return the least index in `[0, n)` at which the (monotone)
predicate holds, or `n`; it is embedded by that contract. -/

/-- An 8-bit RGBA color (`color.RGBA`). -/
structure RGBA where
  r : Nat
  g : Nat
  b : Nat
  a : Nat
  deriving Repr, DecidableEq

/-- Channels fit in 8 bits and the alpha is 255, as in the program's gradients. -/
def Valid8 (c : RGBA) : Prop :=
  c.r ≤ 255 ∧ c.g ≤ 255 ∧ c.b ≤ 255 ∧ c.a = 255

instance (c : RGBA) : Decidable (Valid8 c) := by
  rw [Valid8]; infer_instance

/-- The `uint32` wrap-around modulus `2^32`. -/
def M32 : Nat := 4294967296

/-- One channel of `blend` before the final narrowing:
`x + (w * (y - x) >> 16)` in `uint32` arithmetic, on 16-bit channel
values `x` and `y`. -/
def blendChan (x y w : Nat) : Nat :=
  (x + (w * ((y + M32 - x) % M32)) % M32 / 65536) % M32

/-- Embedding of `blend` (gradient.go lines 11-20): widen each channel to 16 bits,
interpolate in `uint32` arithmetic with weight `uint32(0xffff * t)`, and
narrow with `uint8(r >> 8)`; alpha is fixed at `0xff`. -/
def blend (c1 c2 : RGBA) (t : ℚ) : RGBA :=
  let w := (⌊(65535 : ℚ) * t⌋).toNat
  ⟨blendChan (257 * c1.r) (257 * c2.r) w / 256 % 256,
    blendChan (257 * c1.g) (257 * c2.g) w / 256 % 256,
    blendChan (257 * c1.b) (257 * c2.b) w / 256 % 256,
    255⟩

/-- Linear scan for the least index at or after `i` (with `m` indices
remaining) satisfying `f`. -/
def searchGo (f : Nat → Bool) : Nat → Nat → Nat
  | 0, i => i
  | m + 1, i => if f i then i else searchGo f m (i + 1)

/-- Embedding of `sort.Search n f`: the least `i ∈ [0, n)` with `f i`, else `n`
(the binary search agrees with the linear scan on the monotone predicates
`At` uses). -/
def sortSearch (n : Nat) (f : Nat → Bool) : Nat :=
  searchGo f n 0

/-- Embedding of `LinearGradient.At` (gradient.go lines 23-44); `none` models the
index-out-of-range panic on an empty gradient. -/
def lgAt (lg : List RGBA) (t : ℚ) : Option RGBA :=
  let n := lg.length
  let N : ℚ := (n : ℚ) - 1
  let i := sortSearch n (fun j : Nat => decide ((j : ℚ) / N ≥ t))
  if i = 0 then lg[0]?
  else if i = n then lg[i - 1]?
  else
    match lg[i - 1]?, lg[i]? with
    | some colorA, some colorB => some (blend colorA colorB (N * t - (i : ℚ) + 1))
    | _, _ => none

/-- The specification-side interpolation: one channel of the componentwise
linear interpolation `x + w*(y-x)/2^16` over the 16-bit channel values
`257a` and `257b`, with exact rounding toward minus infinity, narrowed to
8 bits. -/
def lerpChannel (a b w : Nat) : Nat :=
  if a ≤ b then (257 * a + w * (257 * b - 257 * a) / 65536) / 256
  else (257 * a - (w * (257 * a - 257 * b) + 65535) / 65536) / 256

/-! ### Supporting lemmas: blend arithmetic -/

/-- The `uint32` wrap-around arithmetic of `blend` computes exactly the
floor-rounded linear interpolation on each channel. -/
theorem blendChan_eq_lerp (a b w : Nat) (ha : a ≤ 255) (hb : b ≤ 255) (hw : w ≤ 65535) :
    blendChan (257 * a) (257 * b) w / 256 % 256 = lerpChannel a b w := by
  by_cases hab : a ≤ b
  · -- no wrap-around: y ≥ x
    have hd : (257 * b + 4294967296 - 257 * a) % 4294967296 = 257 * b - 257 * a := by
      omega
    have hA2 : w * (257 * b - 257 * a) ≤ 65535 * (257 * b - 257 * a) :=
      Nat.mul_le_mul_right _ hw
    rw [blendChan]
    simp only [M32]
    rw [hd, lerpChannel, if_pos hab]
    omega
  · -- wrap-around: y < x
    have hd : (257 * b + 4294967296 - 257 * a) % 4294967296 =
        4294967296 - (257 * a - 257 * b) := by
      omega
    have hA2 : w * (257 * a - 257 * b) ≤ 65535 * (257 * a - 257 * b) :=
      Nat.mul_le_mul_right _ hw
    have hsplit : w * (4294967296 - (257 * a - 257 * b)) + w * (257 * a - 257 * b) =
        w * 4294967296 := by
      rw [← Nat.mul_add]
      congr 1
      omega
    rw [blendChan]
    simp only [M32]
    rw [hd, lerpChannel, if_neg hab]
    omega

/-- At the maximal weight `0xffff` the interpolation lands exactly on the
second color's channel. -/
theorem lerpChannel_w_max (a b : Nat) (ha : a ≤ 255) (hb : b ≤ 255) :
    lerpChannel a b 65535 = b := by
  rw [lerpChannel]
  by_cases hab : a ≤ b
  · rw [if_pos hab]; omega
  · rw [if_neg hab]; omega

/-- The interpolated channel lies between the two endpoint channels. -/
theorem lerpChannel_between (a b w : Nat) (ha : a ≤ 255) (hb : b ≤ 255)
    (hw : w ≤ 65535) :
    min a b ≤ lerpChannel a b w ∧ lerpChannel a b w ≤ max a b := by
  rw [lerpChannel]
  by_cases hab : a ≤ b
  · have hA2 : w * (257 * b - 257 * a) ≤ 65535 * (257 * b - 257 * a) :=
      Nat.mul_le_mul_right _ hw
    rw [if_pos hab]
    omega
  · have hA2 : w * (257 * a - 257 * b) ≤ 65535 * (257 * a - 257 * b) :=
      Nat.mul_le_mul_right _ hw
    rw [if_neg hab]
    omega

/-- Seen through `lerpChannel`, `blend` is the componentwise floor-rounded linear interpolation with
weight `⌊0xffff⋅t⌋`, for 8-bit stops and an in-range weight. -/
theorem blend_eq_lerp (c1 c2 : RGBA) (h1 : Valid8 c1) (h2 : Valid8 c2) (t : ℚ)
    (hw : (⌊(65535 : ℚ) * t⌋).toNat ≤ 65535) :
    blend c1 c2 t =
      ⟨lerpChannel c1.r c2.r ((⌊(65535 : ℚ) * t⌋).toNat),
        lerpChannel c1.g c2.g ((⌊(65535 : ℚ) * t⌋).toNat),
        lerpChannel c1.b c2.b ((⌊(65535 : ℚ) * t⌋).toNat), 255⟩ := by
  obtain ⟨hr1, hg1, hb1, _⟩ := h1
  obtain ⟨hr2, hg2, hb2, _⟩ := h2
  rw [blend]
  rw [blendChan_eq_lerp _ _ _ hr1 hr2 hw, blendChan_eq_lerp _ _ _ hg1 hg2 hw,
    blendChan_eq_lerp _ _ _ hb1 hb2 hw]

/-! ### Supporting lemmas: search -/

theorem searchGo_eq_of_found (f : Nat → Bool) (k : Nat) (h3 : f k = true) :
    ∀ m i, i ≤ k → k < i + m → (∀ j, i ≤ j → j < k → f j = false) →
      searchGo f m i = k := by
  intro m
  induction m with
  | zero => intro i _ h2 _; omega
  | succ m ih =>
    intro i h1 h2 h4
    rw [searchGo]
    by_cases hfi : f i = true
    · have hik : k = i := by
        by_contra hne
        have hkgt : i < k := by omega
        have := h4 i le_rfl hkgt
        rw [this] at hfi
        cases hfi
      rw [if_pos hfi, hik]
    · have hik : i < k := by
        rcases Nat.eq_or_lt_of_le h1 with he | hl
        · rw [he] at hfi; exact absurd h3 hfi
        · exact hl
      rw [if_neg hfi]
      exact ih (i + 1) (by omega) (by omega) (fun j hj1 hj2 => h4 j (by omega) hj2)

theorem searchGo_eq_of_none (f : Nat → Bool) :
    ∀ m i, (∀ j, i ≤ j → j < i + m → f j = false) → searchGo f m i = i + m := by
  intro m
  induction m with
  | zero => intro i _; rfl
  | succ m ih =>
    intro i h
    rw [searchGo]
    have hfi : ¬ f i = true := by
      rw [h i le_rfl (by omega)]; exact Bool.false_ne_true
    rw [if_neg hfi, ih (i + 1) (fun j hj1 hj2 => h j (by omega) (by omega))]
    omega

theorem searchGo_bounds (f : Nat → Bool) :
    ∀ m i, i ≤ searchGo f m i ∧ searchGo f m i ≤ i + m := by
  intro m
  induction m with
  | zero => intro i; rw [searchGo]; omega
  | succ m ih =>
    intro i
    rw [searchGo]
    by_cases hfi : f i = true
    · rw [if_pos hfi]; omega
    · rw [if_neg hfi]
      have := ih (i + 1)
      omega

/-- The function `At` lands in its interpolation branch whenever the search result is
an interior index. -/
theorem lgAt_eq_blend (lg : List RGBA) (t : ℚ) (i : Nat) (h0 : 0 < i)
    (hn : i < lg.length) (cA cB : RGBA)
    (hA : lg[i - 1]? = some cA) (hB : lg[i]? = some cB)
    (hs : sortSearch lg.length
        (fun j : Nat => decide ((j : ℚ) / ((lg.length : ℚ) - 1) ≥ t)) = i) :
    lgAt lg t = some (blend cA cB (((lg.length : ℚ) - 1) * t - (i : ℚ) + 1)) := by
  simp only [lgAt]
  rw [hs, if_neg (by omega), if_neg (by omega), hA, hB]

/-! ### Claim theorems: C10 -/

/-- C10: `LinearGradient.At` is total on a non-empty gradient and clamps
out-of-range fractions: every `t < 0` yields exactly the first stop, every
`t > 1` yields exactly the last stop, and no input indexes outside the
stop list (the result is always `some`). -/
theorem c10_at_clamps_out_of_range (lg : List RGBA) (h1 : 1 ≤ lg.length) (t : ℚ) :
    (t < 0 → lgAt lg t = lg.head?) ∧
      (1 < t → lgAt lg t = lg.getLast?) ∧
      (lgAt lg t).isSome = true := by
  refine ⟨?_, ?_, ?_⟩
  · intro ht
    have hf0 : (fun j : Nat => decide ((j : ℚ) / ((lg.length : ℚ) - 1) ≥ t)) 0 = true := by
      simp only [decide_eq_true_eq, Nat.cast_zero, zero_div]
      linarith
    have hs : sortSearch lg.length
        (fun j : Nat => decide ((j : ℚ) / ((lg.length : ℚ) - 1) ≥ t)) = 0 :=
      searchGo_eq_of_found _ 0 hf0 lg.length 0 le_rfl (by omega)
        (fun j _ hj => absurd hj (Nat.not_lt_zero j))
    simp only [lgAt]
    rw [hs, if_pos rfl, List.head?_eq_getElem?]
  · intro ht
    have hnone : ∀ j, 0 ≤ j → j < 0 + lg.length →
        (fun j : Nat => decide ((j : ℚ) / ((lg.length : ℚ) - 1) ≥ t)) j = false := by
      intro j _ hj
      simp only [decide_eq_false_iff_not, not_le]
      rcases Nat.lt_or_ge lg.length 2 with hn1 | hn2
      · have hj0 : j = 0 := by omega
        have hn : lg.length = 1 := by omega
        rw [hj0, hn]
        norm_num
        linarith
      · have hNpos : (0 : ℚ) < (lg.length : ℚ) - 1 := by
          have : (2 : ℚ) ≤ (lg.length : ℚ) := by exact_mod_cast hn2
          linarith
        have hjle : (j : ℚ) ≤ (lg.length : ℚ) - 1 := by
          have hj' : j + 1 ≤ lg.length := by omega
          have : (j : ℚ) + 1 ≤ (lg.length : ℚ) := by exact_mod_cast hj'
          linarith
        have : (j : ℚ) / ((lg.length : ℚ) - 1) ≤ 1 :=
          (div_le_one hNpos).mpr hjle
        linarith
    have hs : sortSearch lg.length
        (fun j : Nat => decide ((j : ℚ) / ((lg.length : ℚ) - 1) ≥ t)) = lg.length := by
      have := searchGo_eq_of_none _ lg.length 0 hnone
      simpa [sortSearch] using this
    simp only [lgAt]
    rw [hs, if_neg (by omega), if_pos rfl, List.getLast?_eq_getElem?]
  · rcases hsv : sortSearch lg.length
        (fun j : Nat => decide ((j : ℚ) / ((lg.length : ℚ) - 1) ≥ t)) with _ | i
    · simp only [lgAt]
      rw [hsv, if_pos rfl, List.getElem?_eq_getElem (by omega : 0 < lg.length)]
      rfl
    · have hle : i + 1 ≤ lg.length := by
        have := searchGo_bounds (fun j : Nat => decide ((j : ℚ) / ((lg.length : ℚ) - 1) ≥ t))
          lg.length 0
        rw [sortSearch] at hsv
        omega
      rcases Nat.eq_or_lt_of_le hle with he | hl
      · simp only [lgAt]
        rw [hsv, if_neg (by omega), if_pos he,
          List.getElem?_eq_getElem (by omega : i + 1 - 1 < lg.length)]
        rfl
      · rw [lgAt_eq_blend lg t (i + 1) (by omega) (by omega)
          (lg.get ⟨i, by omega⟩) (lg.get ⟨i + 1, by omega⟩)
          (by rw [List.getElem?_eq_getElem (by omega : i + 1 - 1 < lg.length)]; rfl)
          (by rw [List.getElem?_eq_getElem (by omega : i + 1 < lg.length)]; rfl) hsv]
        rfl

/-! ### Claim theorems: C4 -/

/-- C4: the gradient mapping.  On a gradient with at least two 8-bit
stops, fraction `0` yields exactly the first stop, fraction `1` yields
exactly the last stop, and every interior fraction is mapped through the
two stops bounding it ( `(i-1)/N < t ≤ i/N` ) to their componentwise
linear interpolation — each channel is the floor-rounded 16-bit
interpolation `lerpChannel` at local weight `⌊0xffff⋅(N·t − i + 1)⌋`. -/
theorem c4_gradient_mapping (lg : List RGBA) (hlen : 2 ≤ lg.length)
    (hv : ∀ c ∈ lg, Valid8 c) :
    lgAt lg 0 = lg.head? ∧
      lgAt lg 1 = lg.getLast? ∧
      ∀ t : ℚ, 0 < t → t < 1 →
        ∃ i cA cB, 0 < i ∧ i < lg.length ∧
          lg[i - 1]? = some cA ∧ lg[i]? = some cB ∧
          ((i : ℚ) - 1) / ((lg.length : ℚ) - 1) < t ∧
          t ≤ (i : ℚ) / ((lg.length : ℚ) - 1) ∧
          lgAt lg t = some
            ⟨lerpChannel cA.r cB.r
                ((⌊(65535 : ℚ) * (((lg.length : ℚ) - 1) * t - (i : ℚ) + 1)⌋).toNat),
              lerpChannel cA.g cB.g
                ((⌊(65535 : ℚ) * (((lg.length : ℚ) - 1) * t - (i : ℚ) + 1)⌋).toNat),
              lerpChannel cA.b cB.b
                ((⌊(65535 : ℚ) * (((lg.length : ℚ) - 1) * t - (i : ℚ) + 1)⌋).toNat),
              255⟩ := by
  have hN : (0 : ℚ) < (lg.length : ℚ) - 1 := by
    have : (2 : ℚ) ≤ (lg.length : ℚ) := by exact_mod_cast hlen
    linarith
  have hcast : ((lg.length - 1 : Nat) : ℚ) = (lg.length : ℚ) - 1 := by
    rw [Nat.cast_sub (by omega)]
    norm_num
  -- the end-of-list index satisfies the search predicate for any t ≤ 1
  have hftop : ∀ t : ℚ, t ≤ 1 →
      (fun j : Nat => decide ((j : ℚ) / ((lg.length : ℚ) - 1) ≥ t)) (lg.length - 1) = true := by
    intro t ht
    simp only [decide_eq_true_eq, hcast, ge_iff_le]
    rw [div_self (ne_of_gt hN)]
    exact ht
  refine ⟨?_, ?_, ?_⟩
  · -- fraction 0: the first stop, exactly
    have hf0 : (fun j : Nat => decide ((j : ℚ) / ((lg.length : ℚ) - 1) ≥ (0 : ℚ))) 0 = true := by
      simp only [decide_eq_true_eq, Nat.cast_zero, zero_div, ge_iff_le, le_refl]
    have hs : sortSearch lg.length
        (fun j : Nat => decide ((j : ℚ) / ((lg.length : ℚ) - 1) ≥ (0 : ℚ))) = 0 :=
      searchGo_eq_of_found _ 0 hf0 lg.length 0 le_rfl (by omega)
        (fun j _ hj => absurd hj (Nat.not_lt_zero j))
    simp only [lgAt]
    rw [hs, if_pos rfl, List.head?_eq_getElem?]
  · -- fraction 1: the last stop, exactly
    have hfbelow : ∀ j, 0 ≤ j → j < lg.length - 1 →
        (fun j : Nat => decide ((j : ℚ) / ((lg.length : ℚ) - 1) ≥ (1 : ℚ))) j = false := by
      intro j _ hj
      simp only [decide_eq_false_iff_not, ge_iff_le, not_le]
      rw [div_lt_one hN]
      have : (j : ℚ) + 1 ≤ (lg.length : ℚ) - 1 := by
        have hj' : j + 1 ≤ lg.length - 1 := by omega
        calc (j : ℚ) + 1 = ((j + 1 : Nat) : ℚ) := by push_cast; ring
          _ ≤ ((lg.length - 1 : Nat) : ℚ) := by exact_mod_cast hj'
          _ = (lg.length : ℚ) - 1 := hcast
      linarith
    have hs : sortSearch lg.length
        (fun j : Nat => decide ((j : ℚ) / ((lg.length : ℚ) - 1) ≥ (1 : ℚ))) = lg.length - 1 :=
      searchGo_eq_of_found _ (lg.length - 1) (hftop 1 le_rfl) lg.length 0 (by omega)
        (by omega) (fun j hj1 hj2 => hfbelow j hj1 hj2)
    have hB : lg[lg.length - 1]? = some (lg.get ⟨lg.length - 1, by omega⟩) := by
      rw [List.getElem?_eq_getElem (by omega : lg.length - 1 < lg.length)]
      rfl
    have hA : lg[lg.length - 1 - 1]? = some (lg.get ⟨lg.length - 1 - 1, by omega⟩) := by
      rw [List.getElem?_eq_getElem (by omega : lg.length - 1 - 1 < lg.length)]
      rfl
    rw [lgAt_eq_blend lg 1 (lg.length - 1) (by omega) (by omega) _ _ hA hB hs]
    have harg : ((lg.length : ℚ) - 1) * 1 - ((lg.length - 1 : Nat) : ℚ) + 1 = 1 := by
      rw [hcast]; ring
    rw [harg]
    have hvB := hv _ (List.getElem?_mem hB)
    have hvA := hv _ (List.getElem?_mem hA)
    have hw1 : ((⌊(65535 : ℚ) * 1⌋).toNat) = 65535 := by
      rw [mul_one, show ((65535 : ℚ)) = ((65535 : ℤ) : ℚ) by norm_num, Int.floor_intCast]
      rfl
    rw [blend_eq_lerp _ _ hvA hvB 1 (by rw [hw1]), hw1,
      lerpChannel_w_max _ _ hvA.1 hvB.1, lerpChannel_w_max _ _ hvA.2.1 hvB.2.1,
      lerpChannel_w_max _ _ hvA.2.2.1 hvB.2.2.1, List.getLast?_eq_getElem?, hB]
    obtain ⟨_, _, _, ha255⟩ := hvB
    congr 1
    rw [← ha255]
  · -- interior fractions: the two bounding stops, interpolated
    intro t ht0 ht1
    have hex : ∃ j, (fun j : Nat => decide ((j : ℚ) / ((lg.length : ℚ) - 1) ≥ t)) j = true :=
      ⟨lg.length - 1, hftop t (le_of_lt ht1)⟩
    set k := Nat.find hex with hkdef
    have hk : (fun j : Nat => decide ((j : ℚ) / ((lg.length : ℚ) - 1) ≥ t)) k = true :=
      Nat.find_spec hex
    have hmin : ∀ j, j < k → (fun j : Nat => decide ((j : ℚ) / ((lg.length : ℚ) - 1) ≥ t)) j
        = false := by
      intro j hj
      have := Nat.find_min hex hj
      simpa using this
    have hkle : k ≤ lg.length - 1 := Nat.find_min' hex (hftop t (le_of_lt ht1))
    have hk0 : k ≠ 0 := by
      intro hc
      rw [hc] at hk
      simp only [decide_eq_true_eq, Nat.cast_zero, zero_div, ge_iff_le] at hk
      linarith
    have hs : sortSearch lg.length
        (fun j : Nat => decide ((j : ℚ) / ((lg.length : ℚ) - 1) ≥ t)) = k :=
      searchGo_eq_of_found _ k hk lg.length 0 (by omega) (by omega)
        (fun j _ hj => hmin j hj)
    have hB : lg[k]? = some (lg.get ⟨k, by omega⟩) := by
      rw [List.getElem?_eq_getElem (by omega : k < lg.length)]
      rfl
    have hA : lg[k - 1]? = some (lg.get ⟨k - 1, by omega⟩) := by
      rw [List.getElem?_eq_getElem (by omega : k - 1 < lg.length)]
      rfl
    have hvB := hv _ (List.getElem?_mem hB)
    have hvA := hv _ (List.getElem?_mem hA)
    have hub : t ≤ (k : ℚ) / ((lg.length : ℚ) - 1) := by
      simpa using hk
    have hlb : ((k : ℚ) - 1) / ((lg.length : ℚ) - 1) < t := by
      have hkm := hmin (k - 1) (by omega)
      simp only [decide_eq_false_iff_not, ge_iff_le, not_le] at hkm
      have : ((k - 1 : Nat) : ℚ) = (k : ℚ) - 1 := by
        rw [Nat.cast_sub (by omega)]
        norm_num
      rw [this] at hkm
      exact hkm
    have hwle : ((⌊(65535 : ℚ) * (((lg.length : ℚ) - 1) * t - (k : ℚ) + 1)⌋).toNat)
        ≤ 65535 := by
      have htle : ((lg.length : ℚ) - 1) * t - (k : ℚ) + 1 ≤ 1 := by
        have hNt : ((lg.length : ℚ) - 1) * t ≤ (k : ℚ) := by
          have := mul_le_mul_of_nonneg_right hub (le_of_lt hN)
          calc ((lg.length : ℚ) - 1) * t = t * ((lg.length : ℚ) - 1) := by ring
            _ ≤ (k : ℚ) / ((lg.length : ℚ) - 1) * ((lg.length : ℚ) - 1) := this
            _ = (k : ℚ) := by field_simp
        linarith
      rw [Int.toNat_le]
      calc ⌊(65535 : ℚ) * (((lg.length : ℚ) - 1) * t - (k : ℚ) + 1)⌋
          ≤ ⌊(65535 : ℚ)⌋ := Int.floor_le_floor (by nlinarith)
        _ = 65535 := by norm_num
    refine ⟨k, lg.get ⟨k - 1, by omega⟩, lg.get ⟨k, by omega⟩, by omega, by omega,
      hA, hB, hlb, hub, ?_⟩
    rw [lgAt_eq_blend lg t k (by omega) (by omega) _ _ hA hB hs,
      blend_eq_lerp _ _ hvA hvB _ hwle]

/-- C4 witness: the program's own red–yellow–green gradient
(progress.go lines 32-36) at the endpoint fractions. -/
theorem c4_gradient_mapping_witness :
    lgAt [⟨192, 3, 20, 255⟩, ⟨255, 255, 0, 255⟩, ⟨3, 192, 20, 255⟩] 0 =
        some ⟨192, 3, 20, 255⟩ ∧
      lgAt [⟨192, 3, 20, 255⟩, ⟨255, 255, 0, 255⟩, ⟨3, 192, 20, 255⟩] 1 =
        some ⟨3, 192, 20, 255⟩ := by
  have h := c4_gradient_mapping [⟨192, 3, 20, 255⟩, ⟨255, 255, 0, 255⟩, ⟨3, 192, 20, 255⟩]
    (by norm_num) (by decide)
  exact ⟨by rw [h.1]; rfl, by rw [h.2.1]; rfl⟩

/-- C10 witness: out-of-range fractions on the program's gradient clamp to
the first and last stops. -/
theorem c10_at_clamps_out_of_range_witness :
    lgAt [⟨192, 3, 20, 255⟩, ⟨255, 255, 0, 255⟩, ⟨3, 192, 20, 255⟩] (-1) =
        some ⟨192, 3, 20, 255⟩ ∧
      lgAt [⟨192, 3, 20, 255⟩, ⟨255, 255, 0, 255⟩, ⟨3, 192, 20, 255⟩] 2 =
        some ⟨3, 192, 20, 255⟩ := by
  constructor
  · rw [(c10_at_clamps_out_of_range
      [⟨192, 3, 20, 255⟩, ⟨255, 255, 0, 255⟩, ⟨3, 192, 20, 255⟩] (by norm_num) (-1)).1
      (by norm_num)]
    rfl
  · rw [(c10_at_clamps_out_of_range
      [⟨192, 3, 20, 255⟩, ⟨255, 255, 0, 255⟩, ⟨3, 192, 20, 255⟩] (by norm_num) 2).2.1
      (by norm_num)]
    rfl

/-! ## Save-protocol naming (part_005 lines 116-196)

    func (s PageSaver) name(info Metadata) (dirname, basename string) {
        if chapters, ok := info["chapters"].(int); ok {
            dirname = fmt.Sprintf("%s/%0*d", info["manga"],
                len(strconv.Itoa(chapters)), info["chapter"])
        }
        if pages, ok := info["pages"].(int); ok {
            basename = fmt.Sprintf("%0*d.%s",
                len(strconv.Itoa(pages)), info["page"], info["imageExtension"])
        }
        return
    }

    func (s CBZSaver) name(info Metadata) (archivename, imagename string) {
        ... archivename = fmt.Sprintf("%s/%0*d.cbz", ...) ...
    }

`strconv.Itoa` is decimal conversion; `%0*d` left-pads the decimal form
with zeros to the given width (the sign, if any, precedes the padding);
`%s` and `%d` applied to a value of the wrong dynamic type produce a
`%!`-style error string, modelled by fixed markers. -/

/-- Big-endian decimal digits of a positive number, with enough fuel. -/
def decDigitsCore : Nat → Nat → List Nat
  | 0, _ => []
  | fuel + 1, n => if n = 0 then [] else decDigitsCore fuel (n / 10) ++ [n % 10]

/-- The big-endian decimal digit values of `n` (`[0]` for zero). -/
def decDigits (n : Nat) : List Nat :=
  if n = 0 then [0] else decDigitsCore (n + 1) n

theorem decDigitsCore_eq (fuel n : Nat) (h : n ≤ fuel) :
    decDigitsCore fuel n = (Nat.digits 10 n).reverse := by
  induction fuel generalizing n with
  | zero =>
    have : n = 0 := by omega
    rw [this]
    simp [decDigitsCore, Nat.digits_zero]
  | succ fuel ih =>
    rw [decDigitsCore]
    by_cases hn : n = 0
    · rw [if_pos hn, hn]
      simp [Nat.digits_zero]
    · rw [if_neg hn, ih (n / 10) (by omega),
        Nat.digits_def' (by norm_num : 1 < 10) (by omega : 0 < n), List.reverse_cons]

theorem decDigits_eq (n : Nat) :
    decDigits n = if n = 0 then [0] else (Nat.digits 10 n).reverse := by
  rw [decDigits]
  by_cases h : n = 0
  · rw [if_pos h, if_pos h]
  · rw [if_neg h, if_neg h, decDigitsCore_eq (n + 1) n (by omega)]

/-- The character of one decimal digit. -/
def digitChar (d : Nat) : Char :=
  Char.ofNat (48 + d)

/-- Embedding of `strconv.Itoa` on a non-negative value. -/
def itoaNat (n : Nat) : String :=
  ⟨(decDigits n).map digitChar⟩

/-- Embedding of `strconv.Itoa`. -/
def itoa (n : Int) : String :=
  if n < 0 then "-" ++ itoaNat (-n).toNat else itoaNat n.toNat

/-- Left-pad a character sequence with zeros to width `w`. -/
def padZeroChars (w : Nat) (l : List Char) : List Char :=
  List.replicate (w - l.length) '0' ++ l

/-- The `%0*d` verb at width `w`. -/
def formatIntPad (w : Nat) (n : Int) : String :=
  if n < 0 then ⟨'-' :: padZeroChars (w - 1) (itoaNat (-n).toNat).data⟩
  else ⟨padZeroChars w (itoaNat n.toNat).data⟩

/-- The `%s` verb on a dynamically typed value. -/
def verbS (v : Option MValue) : String :=
  match v with
  | some (.str s) => s
  | some (.int n) => "%!s(int=" ++ itoa n ++ ")"
  | none => "%!s(MISSING)"

/-- The `%0*d` verb on a dynamically typed value. -/
def verbDPad (w : Nat) (v : Option MValue) : String :=
  match v with
  | some (.int n) => formatIntPad w n
  | some (.str s) => "%!d(string=" ++ s ++ ")"
  | none => "%!d(MISSING)"

/-- Embedding of `PageSaver.name` (part_005 lines 120-130). -/
def pageSaverName (info : Metadata) : String × String :=
  let dirname :=
    match info.find "chapters" with
    | some (.int chapters) =>
        verbS (info.find "manga") ++ "/" ++
          verbDPad (itoa chapters).length (info.find "chapter")
    | _ => ""
  let basename :=
    match info.find "pages" with
    | some (.int pages) =>
        verbDPad (itoa pages).length (info.find "page") ++ "." ++
          verbS (info.find "imageExtension")
    | _ => ""
  (dirname, basename)

/-- Embedding of `CBZSaver.name` (part_005 lines 186-196). -/
def cbzSaverName (info : Metadata) : String × String :=
  let archivename :=
    match info.find "chapters" with
    | some (.int chapters) =>
        verbS (info.find "manga") ++ "/" ++
          verbDPad (itoa chapters).length (info.find "chapter") ++ ".cbz"
    | _ => ""
  let imagename :=
    match info.find "pages" with
    | some (.int pages) =>
        verbDPad (itoa pages).length (info.find "page") ++ "." ++
          verbS (info.find "imageExtension")
    | _ => ""
  (archivename, imagename)

/-- The metadata reaching the saver for page `p` of chapter `c`. -/
def mkPageInfo (m : String) (C c P p : Int) (e : String) : Metadata :=
  [("manga", .str m), ("chapters", .int C), ("chapter", .int c),
    ("pages", .int P), ("page", .int p), ("imageExtension", .str e)]

/-! ### Supporting lemmas: decimal digits and zero padding -/

theorem decDigits_lt_base (n : Nat) : ∀ d ∈ decDigits n, d < 10 := by
  intro d hd
  rw [decDigits_eq] at hd
  by_cases h : n = 0
  · rw [if_pos h] at hd
    simp at hd
    omega
  · rw [if_neg h, List.mem_reverse] at hd
    exact Nat.digits_lt_base (by norm_num) hd

theorem decDigits_length_mono {a b : Nat} (h : a ≤ b) :
    (decDigits a).length ≤ (decDigits b).length := by
  rw [decDigits_eq, decDigits_eq]
  by_cases ha : a = 0
  · rw [if_pos ha]
    by_cases hb : b = 0
    · rw [if_pos hb]
    · rw [if_neg hb]
      simp only [List.length_singleton, List.length_reverse]
      have hne : Nat.digits 10 b ≠ [] := Nat.digits_ne_nil_iff_ne_zero.mpr hb
      have := List.length_pos.mpr hne
      omega
  · have hb : b ≠ 0 := by omega
    rw [if_neg ha, if_neg hb]
    simp only [List.length_reverse]
    exact Nat.le_digits_len_le 10 a b h

/-- The numeric value of a big-endian digit list. -/
def digitsVal (l : List Nat) : Nat :=
  l.foldl (fun acc d => 10 * acc + d) 0

theorem digitsVal_foldl (l : List Nat) :
    ∀ acc, l.foldl (fun acc d => 10 * acc + d) acc =
      acc * 10 ^ l.length + digitsVal l := by
  induction l with
  | nil => intro acc; simp [digitsVal]
  | cons d l ih =>
    intro acc
    rw [List.foldl_cons, ih (10 * acc + d)]
    have hd : digitsVal (d :: l) = d * 10 ^ l.length + digitsVal l := by
      rw [digitsVal, List.foldl_cons, ih (10 * 0 + d)]
      ring_nf
    rw [hd, List.length_cons]
    ring

theorem digitsVal_cons (d : Nat) (l : List Nat) :
    digitsVal (d :: l) = d * 10 ^ l.length + digitsVal l := by
  rw [digitsVal, List.foldl_cons, digitsVal_foldl]
  ring_nf

theorem digitsVal_lt (l : List Nat) (h : ∀ d ∈ l, d < 10) :
    digitsVal l < 10 ^ l.length := by
  induction l with
  | nil => rw [digitsVal]; norm_num
  | cons d l ih =>
    rw [digitsVal_cons, List.length_cons, pow_succ]
    have hd : d < 10 := h d (List.mem_cons_self d l)
    have hv := ih (fun x hx => h x (List.mem_cons_of_mem d hx))
    calc d * 10 ^ l.length + digitsVal l
        < d * 10 ^ l.length + 10 ^ l.length := by omega
      _ = (d + 1) * 10 ^ l.length := by ring
      _ ≤ 10 * 10 ^ l.length := Nat.mul_le_mul_right _ (by omega)
      _ = 10 ^ l.length * 10 := by ring

theorem digitsVal_reverse (l : List Nat) :
    digitsVal l.reverse = Nat.ofDigits 10 l := by
  induction l with
  | nil => rfl
  | cons d l ih =>
    rw [List.reverse_cons]
    have hstep : digitsVal (l.reverse ++ [d]) = 10 * digitsVal l.reverse + d := by
      rw [digitsVal, List.foldl_append, List.foldl_cons, List.foldl_nil]
      rfl
    rw [hstep, ih, Nat.ofDigits_cons]
    ring

theorem digitsVal_decDigits (n : Nat) : digitsVal (decDigits n) = n := by
  rw [decDigits_eq]
  by_cases h : n = 0
  · rw [if_pos h, h]
    rfl
  · rw [if_neg h, digitsVal_reverse]
    exact_mod_cast Nat.ofDigits_digits 10 n

/-- Zero padding at the digit level. -/
def padDigits (w : Nat) (l : List Nat) : List Nat :=
  List.replicate (w - l.length) 0 ++ l

theorem digitsVal_padDigits (w : Nat) (l : List Nat) :
    digitsVal (padDigits w l) = digitsVal l := by
  rw [padDigits, digitsVal, List.foldl_append]
  have : ∀ k, (List.replicate k (0 : Nat)).foldl (fun acc d => 10 * acc + d) 0 = 0 := by
    intro k
    induction k with
    | zero => rfl
    | succ k ih => rw [List.replicate_succ, List.foldl_cons]; simpa using ih
  rw [this]
  rfl

theorem padDigits_length (w : Nat) (l : List Nat) (h : l.length ≤ w) :
    (padDigits w l).length = w := by
  rw [padDigits, List.length_append, List.length_replicate]
  omega

theorem padDigits_lt_base (w : Nat) (l : List Nat) (h : ∀ d ∈ l, d < 10) :
    ∀ d ∈ padDigits w l, d < 10 := by
  intro d hd
  rw [padDigits, List.mem_append] at hd
  rcases hd with hd | hd
  · have := List.eq_of_mem_replicate hd
    omega
  · exact h d hd

/-! ### Supporting lemmas: lexicographic order of padded decimals -/

theorem lex_of_digitsVal_lt :
    ∀ (xs ys : List Nat), xs.length = ys.length → (∀ d ∈ xs, d < 10) →
      (∀ d ∈ ys, d < 10) → digitsVal xs < digitsVal ys →
      List.Lex (· < ·) xs ys := by
  intro xs
  induction xs with
  | nil =>
    intro ys hlen _ _ hval
    rcases ys with _ | ⟨y, ys⟩
    · exact absurd hval (lt_irrefl _)
    · simp at hlen
  | cons x xs ih =>
    intro ys hlen hx hy hval
    rcases ys with _ | ⟨y, ys⟩
    · simp at hlen
    · have hlen' : xs.length = ys.length := by simpa using hlen
      rcases lt_trichotomy x y with hxy | hxy | hxy
      · exact List.Lex.rel hxy
      · subst hxy
        refine List.Lex.cons ?_
        apply ih ys hlen' (fun d hd => hx d (List.mem_cons_of_mem x hd))
          (fun d hd => hy d (List.mem_cons_of_mem x hd))
        rw [digitsVal_cons, digitsVal_cons, hlen'] at hval
        omega
      · exfalso
        have hbound := digitsVal_lt ys (fun d hd => hy d (List.mem_cons_of_mem y hd))
        rw [digitsVal_cons, digitsVal_cons, hlen'] at hval
        have hstep : (y + 1) * 10 ^ ys.length ≤ x * 10 ^ ys.length :=
          Nat.mul_le_mul_right _ (by omega)
        have hexp : y * 10 ^ ys.length + 10 ^ ys.length = (y + 1) * 10 ^ ys.length := by
          ring
        omega

theorem digitChar_lt_digitChar {x y : Nat} (hx : x < 10) (hy : y < 10) (h : x < y) :
    digitChar x < digitChar y := by
  interval_cases x <;> interval_cases y <;> revert h <;> decide

theorem lex_map_digitChar :
    ∀ {xs ys : List Nat}, (∀ d ∈ xs, d < 10) → (∀ d ∈ ys, d < 10) →
      List.Lex (· < ·) xs ys →
      List.Lex (· < ·) (xs.map digitChar) (ys.map digitChar) := by
  intro xs ys hx hy h
  induction h with
  | nil => exact List.Lex.nil
  | cons h ih =>
    exact List.Lex.cons (ih (fun d hd => hx d (List.mem_cons_of_mem _ hd))
      (fun d hd => hy d (List.mem_cons_of_mem _ hd)))
  | rel hab =>
    exact List.Lex.rel (digitChar_lt_digitChar
      (hx _ (List.mem_cons_self _ _)) (hy _ (List.mem_cons_self _ _)) hab)

theorem lex_append_left (p : List Char) {xs ys : List Char}
    (h : List.Lex (· < ·) xs ys) : List.Lex (· < ·) (p ++ xs) (p ++ ys) := by
  induction p with
  | nil => exact h
  | cons c p ih => exact List.Lex.cons ih

theorem lex_append_of_length_eq :
    ∀ {xs ys : List Char} (as bs : List Char), xs.length = ys.length →
      List.Lex (· < ·) xs ys → List.Lex (· < ·) (xs ++ as) (ys ++ bs) := by
  intro xs
  induction xs with
  | nil =>
    intro ys as bs hlen h
    rcases ys with _ | ⟨y, ys⟩
    · cases h
    · simp at hlen
  | cons x xs ih =>
    intro ys as bs hlen h
    rcases ys with _ | ⟨y, ys⟩
    · simp at hlen
    · have hlen' : xs.length = ys.length := by simpa using hlen
      cases h with
      | cons h3 => exact List.Lex.cons (ih as bs hlen' h3)
      | rel hab => exact List.Lex.rel hab

theorem formatIntPad_data (w : Nat) (n : Int) (hn : 0 ≤ n) :
    (formatIntPad w n).data = (padDigits w (decDigits n.toNat)).map digitChar := by
  rw [formatIntPad, if_neg (by omega)]
  show padZeroChars w ((decDigits n.toNat).map digitChar) = _
  rw [padZeroChars, padDigits, List.map_append, List.map_replicate, List.length_map]
  have h0 : digitChar 0 = '0' := by decide
  rw [h0]

theorem itoa_length_of_nonneg (n : Int) (hn : 0 ≤ n) :
    (itoa n).length = (decDigits n.toNat).length := by
  rw [itoa, if_neg (by omega)]
  show ((decDigits n.toNat).map digitChar).length = _
  rw [List.length_map]

/-- The central ordering fact: zero-padding to the width of `W`'s decimal
form makes the lexicographic order of the rendered numbers agree with
their numeric order, for `0 ≤ a < b ≤ W`. -/
theorem formatIntPad_lt (W a b : Int) (h0 : 0 ≤ a) (hab : a < b) (hbW : b ≤ W) :
    formatIntPad (itoa W).length a < formatIntPad (itoa W).length b := by
  have hbge : 0 ≤ b := by omega
  have hWge : 0 ≤ W := by omega
  have hwa : (decDigits a.toNat).length ≤ (itoa W).length := by
    rw [itoa_length_of_nonneg W hWge]
    exact decDigits_length_mono (by omega)
  have hwb : (decDigits b.toNat).length ≤ (itoa W).length := by
    rw [itoa_length_of_nonneg W hWge]
    exact decDigits_length_mono (by omega)
  rw [String.lt_iff_toList_lt]
  have htl : ∀ s : String, s.toList = s.data := fun _ => rfl
  rw [htl, htl, formatIntPad_data _ _ h0, formatIntPad_data _ _ hbge]
  apply lex_map_digitChar
    (padDigits_lt_base _ _ (decDigits_lt_base _))
    (padDigits_lt_base _ _ (decDigits_lt_base _))
  apply lex_of_digitsVal_lt
  · rw [padDigits_length _ _ hwa, padDigits_length _ _ hwb]
  · exact padDigits_lt_base _ _ (decDigits_lt_base _)
  · exact padDigits_lt_base _ _ (decDigits_lt_base _)
  · rw [digitsVal_padDigits, digitsVal_padDigits, digitsVal_decDigits, digitsVal_decDigits]
    omega

theorem formatIntPad_data_length (W x : Int) (hx : 0 ≤ x) (hxW : x ≤ W) :
    ((formatIntPad (itoa W).length x).data).length = (itoa W).length := by
  rw [formatIntPad_data _ _ hx, List.length_map, padDigits_length,
    itoa_length_of_nonneg W (by omega)]
  rw [itoa_length_of_nonneg W (by omega)]
  exact decDigits_length_mono (by omega)

/-! ### Claim theorems: C5 -/

/-- C5: saver naming and ordering.  The container is named
`<manga>/<chapter zero-padded to the width of digits(chapters)>` (with a
`.cbz` suffix in archive mode) and the leaf
`<page zero-padded to the width of digits(pages)>.<imageExtension>`, and
for indices up to the respective totals the zero padding makes the
lexicographic order of the generated names agree with the numeric order of
the chapter and page indices. -/
theorem c5_naming_and_order (m e : String) (C c c₁ c₂ P p p₁ p₂ : Int)
    (h₁ : 0 ≤ c₁) (h₂ : c₁ < c₂) (h₃ : c₂ ≤ C)
    (h₄ : 0 ≤ p₁) (h₅ : p₁ < p₂) (h₆ : p₂ ≤ P) :
    pageSaverName (mkPageInfo m C c P p e) =
        (m ++ "/" ++ formatIntPad (itoa C).length c,
          formatIntPad (itoa P).length p ++ "." ++ e) ∧
      cbzSaverName (mkPageInfo m C c P p e) =
        (m ++ "/" ++ formatIntPad (itoa C).length c ++ ".cbz",
          formatIntPad (itoa P).length p ++ "." ++ e) ∧
      (pageSaverName (mkPageInfo m C c₁ P p e)).1 <
        (pageSaverName (mkPageInfo m C c₂ P p e)).1 ∧
      (cbzSaverName (mkPageInfo m C c₁ P p e)).1 <
        (cbzSaverName (mkPageInfo m C c₂ P p e)).1 ∧
      (pageSaverName (mkPageInfo m C c P p₁ e)).2 <
        (pageSaverName (mkPageInfo m C c P p₂ e)).2 := by
  have hfmt : ∀ c p : Int, pageSaverName (mkPageInfo m C c P p e) =
      (m ++ "/" ++ formatIntPad (itoa C).length c,
        formatIntPad (itoa P).length p ++ "." ++ e) := fun _ _ => rfl
  have hfmtz : ∀ c p : Int, cbzSaverName (mkPageInfo m C c P p e) =
      (m ++ "/" ++ formatIntPad (itoa C).length c ++ ".cbz",
        formatIntPad (itoa P).length p ++ "." ++ e) := fun _ _ => rfl
  have htl : ∀ s : String, s.toList = s.data := fun _ => rfl
  have hclex : List.Lex (· < ·) (formatIntPad (itoa C).length c₁).data
      (formatIntPad (itoa C).length c₂).data := by
    have := String.lt_iff_toList_lt.mp (formatIntPad_lt C c₁ c₂ h₁ h₂ h₃)
    rwa [htl, htl] at this
  have hplex : List.Lex (· < ·) (formatIntPad (itoa P).length p₁).data
      (formatIntPad (itoa P).length p₂).data := by
    have := String.lt_iff_toList_lt.mp (formatIntPad_lt P p₁ p₂ h₄ h₅ h₆)
    rwa [htl, htl] at this
  refine ⟨hfmt c p, hfmtz c p, ?_, ?_, ?_⟩
  · rw [hfmt c₁ p, hfmt c₂ p]
    rw [String.lt_iff_toList_lt, htl, htl]
    show List.Lex (· < ·) ((m ++ "/" ++ formatIntPad (itoa C).length c₁).data) _
    simp only [String.data_append, List.append_assoc]
    exact lex_append_left _ (lex_append_left _ hclex)
  · rw [hfmtz c₁ p, hfmtz c₂ p]
    rw [String.lt_iff_toList_lt, htl, htl]
    show List.Lex (· < ·) ((m ++ "/" ++ formatIntPad (itoa C).length c₁ ++ ".cbz").data) _
    simp only [String.data_append, List.append_assoc]
    refine lex_append_left _ (lex_append_left _ ?_)
    exact lex_append_of_length_eq _ _
      ((formatIntPad_data_length C c₁ h₁ (by omega)).trans
        (formatIntPad_data_length C c₂ (by omega) h₃).symm) hclex
  · rw [hfmt c p₁, hfmt c p₂]
    rw [String.lt_iff_toList_lt, htl, htl]
    show List.Lex (· < ·) ((formatIntPad (itoa P).length p₁ ++ "." ++ e).data) _
    simp only [String.data_append, List.append_assoc]
    exact lex_append_of_length_eq _ _
      ((formatIntPad_data_length P p₁ h₄ (by omega)).trans
        (formatIntPad_data_length P p₂ (by omega) h₆).symm) hplex

/-- C5 witness: chapter 7 of 120 ("007") sorts before chapter 12 ("012"),
page 5 of 10 renders as "05.jpg", in both folder and archive modes. -/
theorem c5_naming_and_order_witness :
    pageSaverName (mkPageInfo "One Piece" 120 7 10 5 "jpg") =
        ("One Piece/007", "05.jpg") ∧
      cbzSaverName (mkPageInfo "One Piece" 120 7 10 5 "jpg") =
        ("One Piece/007.cbz", "05.jpg") ∧
      (pageSaverName (mkPageInfo "One Piece" 120 7 10 5 "jpg")).1 <
        (pageSaverName (mkPageInfo "One Piece" 120 12 10 5 "jpg")).1 := by
  have h := c5_naming_and_order "One Piece" "jpg" 120 7 7 12 10 5 5 6
    (by norm_num) (by norm_num) (by norm_num) (by norm_num) (by norm_num) (by norm_num)
  exact ⟨by rw [h.1]; rfl, by rw [h.2.1]; rfl, h.2.2.1⟩

end Mango
